import Mathlib

/-!
Shallow embedding of the `ColumnVector<T>` bulk operations from
`be/src/vec/columns/column_vector.cpp` and of the protobuf converter dispatch
from `be/src/vec/data_types/serde/data_type_number_serde.h` of the Doris
vectorized execution core.  A column is modelled as a `List α` of its element
slots in row order; machine bytes are modelled as `Nat` values below 256, and
`size_t` arithmetic is carried out modulo `2 ^ 64` where the source relies on
unsigned wraparound.
-/

namespace DorisVec

variable {α : Type}

/-- Modelled from the spec: the recoverable error categories of §7.
`sizeMismatch` is raised by the external helper `column_match_filter_size`
(declared in `columns_common.h`, not part of the analyzed sources) when a mask
length disagrees with the row count; `rangeError` is the recoverable exception
`ColumnVector<T>::insert_range_from` raises when a requested sub-range exceeds
the source column's bound. -/
inductive ColErr
  | sizeMismatch
  | rangeError
  deriving DecidableEq, Repr

/-- Row selection by a boolean mask: keeps, in original order, exactly the
elements whose mask entry is true.  This is the semantic yardstick both
`ColumnVector<T>::filter` entry points are measured against. -/
def selectMask : List α → List Bool → List α
  | x :: xs, b :: bs => if b then x :: selectMask xs bs else selectMask xs bs
  | _, _ => []

/-- Positions of the true entries of a mask, in ascending order. -/
def truePositions : List Bool → List Nat
  | [] => []
  | b :: bs =>
    if b then 0 :: (truePositions bs).map (· + 1) else (truePositions bs).map (· + 1)

/-- Embedding of the main loops of the to-new
`ColumnVector<T>::filter(filt, result_size_hint)` (`column_vector.cpp:324-375`).
`B` stands for `simd::bits_mask_length()`, a positive platform constant.  The
main loop covers the `size / SIMD_BYTES * SIMD_BYTES` full blocks — equivalently
it runs while at least `B` rows remain: an all-false block mask is skipped, an
all-true block is copied wholesale (`res_data.insert`), and a mixed block copies
exactly its set rows in ascending order (`simd::iterate_through_bits_mask`); the
trailing loop handles the remaining rows one by one.  The simd helpers live
outside the analyzed sources and are modelled by their block predicates on the
boolean mask (a mask byte is set exactly when the filter entry is true). -/
def filterBlocksTo (B : Nat) (data : List α) (filt : List Bool) : List α :=
  if _h : B = 0 ∨ data.length < B then
    selectMask data filt
  else
    (if (filt.take B).all (fun b => !b) then []
     else if (filt.take B).all id then data.take B
     else selectMask (data.take B) (filt.take B)) ++
      filterBlocksTo B (data.drop B) (filt.drop B)
termination_by data.length
decreasing_by
  simp only [List.length_drop]
  omega

/-- Embedding of the to-new `ColumnVector<T>::filter` together with its
precondition.  Modelled from the spec for the part outside the analyzed
sources: `column_match_filter_size(size, filt.size())` reports `SizeMismatch`
when the mask length disagrees with the row count, and has no other effect. -/
def filterToNew (B : Nat) (data : List α) (filt : List Bool) : Except ColErr (List α) :=
  if data.length = filt.length then Except.ok (filterBlocksTo B data filt)
  else Except.error ColErr.sizeMismatch

theorem length_selectMask :
    ∀ (data : List α) (filt : List Bool), filt.length = data.length →
      (selectMask data filt).length = filt.countP id
  | [], [], _ => rfl
  | x :: xs, b :: bs, h => by
    have ih := length_selectMask xs bs (by simpa using h)
    cases b <;> simp [selectMask, List.countP_cons, ih]

theorem selectMask_eq_map_truePositions (d : α) :
    ∀ (data : List α) (filt : List Bool), filt.length = data.length →
      selectMask data filt = (truePositions filt).map (fun j => data.getD j d)
  | data, [], _ => by cases data <;> simp [selectMask, truePositions]
  | x :: xs, b :: bs, h => by
    have ih := selectMask_eq_map_truePositions d xs bs (by simpa using h)
    cases b <;>
      simp [selectMask, truePositions, ih, List.map_map, Function.comp_def]

theorem selectMask_append :
    ∀ (d1 : List α) (f1 : List Bool), f1.length = d1.length →
      ∀ (d2 : List α) (f2 : List Bool),
        selectMask (d1 ++ d2) (f1 ++ f2) = selectMask d1 f1 ++ selectMask d2 f2
  | [], [], _, _, _ => by simp [selectMask]
  | x :: xs, b :: bs, h, d2, f2 => by
    have ih := selectMask_append xs bs (by simpa using h) d2 f2
    cases b <;> simp [selectMask, ih]

theorem selectMask_all_false :
    ∀ (data : List α) (filt : List Bool), filt.all (fun b => !b) = true →
      selectMask data filt = []
  | [], filt, _ => by cases filt <;> simp [selectMask]
  | _ :: _, [], _ => by simp [selectMask]
  | x :: xs, b :: bs, h => by
    simp only [List.all_cons, Bool.and_eq_true, Bool.not_eq_eq_eq_not, Bool.not_true] at h
    simp [selectMask, h.1, selectMask_all_false xs bs h.2]

theorem selectMask_all_true :
    ∀ (data : List α) (filt : List Bool), filt.length = data.length →
      filt.all id = true → selectMask data filt = data
  | [], [], _, _ => rfl
  | x :: xs, b :: bs, h, hall => by
    simp only [List.all_cons, Bool.and_eq_true, id_eq] at hall
    simp [selectMask, hall.1,
      selectMask_all_true xs bs (by simpa using h) hall.2]

theorem filterBlocksTo_eq_selectMask (B : Nat) (data : List α) (filt : List Bool)
    (h : filt.length = data.length) :
    filterBlocksTo B data filt = selectMask data filt := by
  induction data, filt using filterBlocksTo.induct B with
  | case1 data filt hstop =>
    rw [filterBlocksTo, dif_pos hstop]
  | case2 data filt hstop ih =>
    rw [filterBlocksTo, dif_neg hstop]
    have hB : ¬ (B = 0) ∧ B ≤ data.length := by
      constructor <;> omega
    have hlenf : (filt.take B).length = (data.take B).length := by
      simp [List.length_take, h]
    have hdrop : (filt.drop B).length = (data.drop B).length := by
      simp [List.length_drop, h]
    have hsplit : selectMask data filt =
        selectMask (data.take B) (filt.take B) ++
          selectMask (data.drop B) (filt.drop B) := by
      conv_lhs => rw [← List.take_append_drop B data, ← List.take_append_drop B filt]
      exact selectMask_append _ _ hlenf _ _
    rw [ih hdrop, hsplit]
    by_cases hf : (filt.take B).all (fun b => !b) = true
    · rw [if_pos hf, selectMask_all_false _ _ hf]
    · rw [if_neg hf]
      by_cases ht : (filt.take B).all id = true
      · rw [if_pos ht, selectMask_all_true _ _ hlenf ht]
      · rw [if_neg ht]

/-- C1: for a boolean mask of matching length, to-new filtering succeeds with a
new column of size `popcount(mask)` whose `i`-th element is the source element
at the position of the `i`-th true mask entry (original row order preserved);
a length mismatch fails with `SizeMismatch`, and the to-new path never touches
its receiver. -/
theorem filter_to_new_spec (B : Nat) (d : α) (data : List α) (filt : List Bool) :
    (filt.length = data.length →
      filterToNew B data filt = Except.ok (selectMask data filt) ∧
      (selectMask data filt).length = filt.countP id ∧
      selectMask data filt = (truePositions filt).map (fun j => data.getD j d)) ∧
    (filt.length ≠ data.length →
      filterToNew B data filt = Except.error ColErr.sizeMismatch) := by
  constructor
  · intro h
    refine ⟨?_, length_selectMask data filt h, selectMask_eq_map_truePositions d data filt h⟩
    rw [filterToNew, if_pos h.symm, filterBlocksTo_eq_selectMask B data filt h]
  · intro h
    rw [filterToNew, if_neg (fun hx => h hx.symm)]

/-- Witness for C1 at the spec's concrete scenario 1: integer column
`[5,3,8,1]`, mask `[1,0,1,1]`, block width 32, filtered to `[5,8,1]` of length
`popcount(mask) = 3`. -/
theorem filter_to_new_spec_witness :
    filterToNew 32 ([5, 3, 8, 1] : List Int) [true, false, true, true] =
      Except.ok [5, 8, 1] ∧
    ([5, 8, 1] : List Int).length = [true, false, true, true].countP id := by
  have h := (filter_to_new_spec 32 (0 : Int) [5, 3, 8, 1]
      [true, false, true, true]).1 rfl
  exact ⟨h.1.trans rfl, rfl⟩

/-- Embedding of the per-row compaction loop of the in-place
`ColumnVector<T>::filter(filter)` (`column_vector.cpp:377-429`): `r` is the
read cursor `data_pos` and `w` the write cursor `result_data`, both indices
into the single underlying buffer `arr`.  A set filter entry moves `arr[r]` to
`arr[w]` and advances both cursors; a clear entry advances only the read
cursor.  The SIMD main loop performs exactly these per-row moves in blocks of
`simd::bits_mask_length()` rows (an all-true block via `memmove`, a mixed block
via `simd::iterate_through_bits_mask`); the blocked moves coincide with the
per-row ones because the write cursor never passes the read cursor. -/
def filterInPlaceAux (d : α) : List Bool → List α → Nat → Nat → List α × Nat
  | [], arr, _, w => (arr, w)
  | b :: bs, arr, r, w =>
    if b then filterInPlaceAux d bs (arr.set w (arr.getD r d)) (r + 1) (w + 1)
    else filterInPlaceAux d bs arr (r + 1) w

/-- Embedding of the in-place `ColumnVector<T>::filter`: after the compaction
loop the column is truncated to the write cursor (`resize(new_size)`) and the
new length is returned.  The `SizeMismatch` precondition check is the same
external `column_match_filter_size` helper as in the to-new entry point. -/
def filterInPlace (d : α) (data : List α) (filt : List Bool) :
    Except ColErr (List α × Nat) :=
  if data.length = filt.length then
    let res := filterInPlaceAux d filt data 0 0
    Except.ok (res.1.take res.2, res.2)
  else Except.error ColErr.sizeMismatch

theorem selectMask_nil_right (l : List α) : selectMask l [] = [] := by
  cases l <;> rfl

theorem filterInPlaceAux_spec (d : α) :
    ∀ (bs : List Bool) (arr : List α) (r w : Nat), w ≤ r →
      arr.length = r + bs.length →
      (filterInPlaceAux d bs arr r w).2 = w + bs.countP id ∧
      (filterInPlaceAux d bs arr r w).1.length = arr.length ∧
      (filterInPlaceAux d bs arr r w).1.take (w + bs.countP id) =
        arr.take w ++ selectMask (arr.drop r) bs
  | [], arr, r, w, hw, hlen => by
    simp [filterInPlaceAux, selectMask_nil_right]
  | false :: bs, arr, r, w, hw, hlen => by
    have hr : r < arr.length := by simp at hlen; omega
    have ih := filterInPlaceAux_spec d bs arr (r + 1) w (by omega)
      (by simp at hlen ⊢; omega)
    have hdrop : arr.drop r = arr[r] :: arr.drop (r + 1) :=
      List.drop_eq_getElem_cons hr
    rw [show filterInPlaceAux d (false :: bs) arr r w
        = filterInPlaceAux d bs arr (r + 1) w from rfl]
    refine ⟨?_, ih.2.1, ?_⟩
    · simpa [List.countP_cons] using ih.1
    · rw [hdrop]
      simpa [List.countP_cons, selectMask] using ih.2.2
  | true :: bs, arr, r, w, hw, hlen => by
    have hr : r < arr.length := by simp at hlen; omega
    have hwlt : w < arr.length := by omega
    have ih := filterInPlaceAux_spec d bs (arr.set w (arr.getD r d)) (r + 1) (w + 1)
      (by omega) (by simp at hlen ⊢; omega)
    have hdrop : arr.drop r = arr[r] :: arr.drop (r + 1) :=
      List.drop_eq_getElem_cons hr
    have hgetD : arr.getD r d = arr[r] := List.getD_eq_getElem arr d hr
    have hsetdrop : (arr.set w (arr.getD r d)).drop (r + 1) = arr.drop (r + 1) := by
      rw [List.drop_set, if_pos (by omega)]
    have hsettake : (arr.set w (arr.getD r d)).take (w + 1) =
        arr.take w ++ [arr[r]] := by
      rw [List.set_take, ← List.take_concat_get arr w hwlt, List.concat_eq_append,
        List.set_append_right w _ (by simp [List.length_take])]
      have hlen0 : w - (arr.take w).length = 0 := by
        simp [List.length_take, Nat.min_eq_left (Nat.le_of_lt hwlt)]
      rw [hlen0, List.set_cons_zero, hgetD]
    rw [show filterInPlaceAux d (true :: bs) arr r w
        = filterInPlaceAux d bs (arr.set w (arr.getD r d)) (r + 1) (w + 1) from rfl]
    have hcount : w + List.countP id (true :: bs) = w + 1 + List.countP id bs := by
      simp [List.countP_cons]; omega
    refine ⟨?_, ?_, ?_⟩
    · rw [hcount]
      exact ih.1
    · simpa using ih.2.1
    · rw [hcount, ih.2.2, hsetdrop, hsettake, hdrop, List.append_assoc]
      simp [selectMask]

/-- C2: with a matching boolean mask, the in-place filter compacts the column
to content identical to what the to-new filter produces on the same input and
returns the new length `popcount(mask)`. -/
theorem filter_in_place_refines_to_new (B : Nat) (d : α) (data : List α)
    (filt : List Bool) (h : filt.length = data.length) :
    filterInPlace d data filt = Except.ok (selectMask data filt, filt.countP id) ∧
    filterToNew B data filt = Except.ok (selectMask data filt) := by
  have hs := filterInPlaceAux_spec d filt data 0 0 (Nat.le_refl 0) (by omega)
  constructor
  · rw [filterInPlace, if_pos h.symm]
    have h1 := hs.1
    have h2 := hs.2.2
    simp only [Nat.zero_add, List.drop_zero, List.take_zero, List.nil_append] at h1 h2
    simp [h1, h2]
  · rw [filterToNew, if_pos h.symm, filterBlocksTo_eq_selectMask B data filt h]

/-- Witness for C2 at the spec's concrete scenario 1: the in-place filter of
`[5,3,8,1]` under mask `[1,0,1,1]` returns length 3 with content `[5,8,1]`,
byte-identical to the to-new filter's output. -/
theorem filter_in_place_refines_to_new_witness :
    filterInPlace (0 : Int) [5, 3, 8, 1] [true, false, true, true] =
      Except.ok ([5, 8, 1], 3) ∧
    filterToNew 32 ([5, 3, 8, 1] : List Int) [true, false, true, true] =
      Except.ok [5, 8, 1] := by
  have h := filter_in_place_refines_to_new 32 (0 : Int) [5, 3, 8, 1]
    [true, false, true, true] rfl
  exact ⟨h.1.trans rfl, h.2.trans rfl⟩

/-- Width of the unsigned `size_t` arithmetic used by
`ColumnVector<T>::insert_range_from` on a 64-bit platform. -/
def sizeTCard : Nat := 2 ^ 64

/-- Embedding of `ColumnVector<T>::insert_range_from(src, start, length)`
(`column_vector.cpp:290-304`): the bound check is the literal source condition
`start + length > src_vec.data.size()` evaluated in `size_t` arithmetic, i.e.
modulo `2 ^ 64`; on success `length` elements starting at `start` are copied
onto the end of the destination.  The copied range is meaningful only when
`start + length ≤ src.length`; an out-of-bounds `memcpy` is undefined behaviour
in the source and is modelled here by list truncation. -/
def insertRangeFrom (dst src : List α) (start length : Nat) :
    Except ColErr (List α) :=
  if (start + length) % sizeTCard > src.length then Except.error ColErr.rangeError
  else Except.ok (dst ++ (src.drop start).take length)

/-- C4 counterexample: with a one-element source column, `start = 2^64 - 1` and
`length = 2`, the true sum `start + length` exceeds the source size, yet the
`size_t` sum wraps around to `1` and the bound check passes, so no `RangeError`
is reported — the check relies on wraparound truncation instead of detecting
unsigned overflow, contradicting the claim. -/
theorem insert_range_from_overflow_counterexample :
    (2 ^ 64 - 1) + 2 > ([42] : List Int).length ∧
    (insertRangeFrom ([] : List Int) [42] (2 ^ 64 - 1) 2).isOk = true := by
  constructor
  · decide
  · rw [insertRangeFrom, if_neg (by decide)]
    rfl

/-- C4 amended: `insert_range_from` fails with `RangeError` exactly when the
wrapped `size_t` sum `(start + length) mod 2^64` exceeds the source size — the
check does not detect unsigned-arithmetic overflow; whenever the true sum
`start + length` is within bounds it appends exactly the `length` elements
`src[start..start+length)`, and on failure the destination is unchanged (the
destination is only written after the check succeeds). -/
theorem insert_range_from_spec (dst src : List α) (start length : Nat) :
    (insertRangeFrom dst src start length = Except.error ColErr.rangeError ↔
      (start + length) % sizeTCard > src.length) ∧
    (start + length ≤ src.length →
      insertRangeFrom dst src start length =
        Except.ok (dst ++ (src.drop start).take length) ∧
      ((src.drop start).take length).length = length) ∧
    ((start + length) % sizeTCard > src.length →
      ∀ r, insertRangeFrom dst src start length ≠ Except.ok r) := by
  refine ⟨?_, ?_, ?_⟩
  · constructor
    · intro h
      by_contra hgt
      rw [insertRangeFrom, if_neg hgt] at h
      exact Except.noConfusion h
    · intro h
      rw [insertRangeFrom, if_pos h]
  · intro h
    have hmod : (start + length) % sizeTCard ≤ start + length := Nat.mod_le _ _
    refine ⟨by rw [insertRangeFrom, if_neg (by omega)], ?_⟩
    simp [List.length_take, List.length_drop]
    omega
  · intro h r
    rw [insertRangeFrom, if_pos h]
    exact fun hx => Except.noConfusion hx

/-- Witness for the amended C4: appending `src[1..3)` of `[10,20,30,40]` to
`[1]` yields `[1,20,30]`, and the huge-`start` case is rejected through the
wrapped check when no wraparound occurs. -/
theorem insert_range_from_spec_witness :
    insertRangeFrom ([1] : List Int) [10, 20, 30, 40] 1 2 =
      Except.ok [1, 20, 30] ∧
    insertRangeFrom ([1] : List Int) [10, 20, 30, 40] 3 2 =
      Except.error ColErr.rangeError := by
  constructor
  · exact (((insert_range_from_spec [1] [10, 20, 30, 40] 1 2).2.1 (by decide)).1).trans rfl
  · exact ((insert_range_from_spec ([1] : List Int) [10, 20, 30, 40] 3 2).1).2 (by decide)

/-- Embedding of `ColumnVector<T>::replace_column_null_data(null_map)`
(`column_vector.cpp:493-503`): the number of set bytes in the byte-per-row
null map is counted first (`s - simd::count_zero_num(null_map, s)`; the
counting helper is external and is modelled by `countP`); when it is zero the
early return leaves the column untouched, otherwise every row whose null byte
is nonzero is overwritten with the domain's value-initialized zero `z = T()`
and every other row keeps its element bit-for-bit. -/
def replaceColumnNullData (z : α) (data : List α) (nullMap : List Nat) : List α :=
  let s := data.length
  let nullCount := s - (nullMap.take s).countP (fun b => b == 0)
  if nullCount = 0 then data
  else List.zipWith (fun x b => if b != 0 then z else x) data nullMap

/-- C10: for a byte-per-row null map of the column's length,
`replace_column_null_data` zeroes the element at every row whose null byte is
nonzero, leaves every row with a zero null byte unchanged, and never changes
the column's size. -/
theorem replace_column_null_data_spec (z : α) (data : List α) (nullMap : List Nat)
    (h : nullMap.length = data.length) :
    (replaceColumnNullData z data nullMap).length = data.length ∧
    ∀ i, i < data.length →
      (replaceColumnNullData z data nullMap).getD i z =
        if nullMap.getD i 0 ≠ 0 then z else data.getD i z := by
  have hzip : ∀ i, i < data.length →
      (List.zipWith (fun x b => if b != 0 then z else x) data nullMap).getD i z =
        if nullMap.getD i 0 ≠ 0 then z else data.getD i z := by
    intro i hi
    have hi2 : i < nullMap.length := by omega
    rw [List.getD_eq_getElem?_getD, List.getElem?_zipWith,
      List.getElem?_eq_getElem hi, List.getElem?_eq_getElem hi2]
    simp only [Option.map_some, Option.bind_some, Option.getD_some,
      List.getD_eq_getElem?_getD, List.getElem?_eq_getElem hi,
      List.getElem?_eq_getElem hi2]
    by_cases hb : nullMap[i] = 0 <;> simp [hb]
  rw [replaceColumnNullData]
  by_cases hc : data.length - (nullMap.take data.length).countP (fun b => b == 0) = 0
  · rw [if_pos hc]
    have hall : ∀ b ∈ nullMap, b = 0 := by
      have htake : nullMap.take data.length = nullMap := by
        rw [List.take_of_length_le (by omega)]
      rw [htake] at hc
      have hle : nullMap.countP (fun b => b == 0) ≤ nullMap.length :=
        @List.countP_le_length Nat (fun b => b == 0) nullMap
      have heq : nullMap.countP (fun b => b == 0) = nullMap.length := by omega
      intro b hb
      have := (List.countP_eq_length.mp heq) b hb
      simpa using this
    refine ⟨rfl, ?_⟩
    intro i hi
    have hb : nullMap.getD i 0 = 0 := by
      have hi2 : i < nullMap.length := by omega
      rw [List.getD_eq_getElem?_getD, List.getElem?_eq_getElem hi2]
      exact hall _ (List.getElem_mem hi2)
    rw [if_neg (fun hx => hx hb)]
  · rw [if_neg hc]
    refine ⟨by simp [List.length_zipWith]; omega, hzip⟩

/-- Witness for C10: null map `[1,0,2]` over column `[7,8,9]` zeroes rows 0 and
2 (any nonzero byte counts as null), keeps row 1, and preserves the size. -/
theorem replace_column_null_data_spec_witness :
    (replaceColumnNullData (0 : Int) [7, 8, 9] [1, 0, 2]).length = 3 ∧
    replaceColumnNullData (0 : Int) [7, 8, 9] [1, 0, 2] = [0, 8, 0] := by
  have h := replace_column_null_data_spec (0 : Int) [7, 8, 9] [1, 0, 2] rfl
  exact ⟨h.1.trans rfl, rfl⟩

/-- Outcome type distinguishing a process-level fatal engineering fault from a
normal return.  Modelled from the spec for the part outside the analyzed
sources: §7 classifies internal invariant violations — raised in
`ColumnVector<T>::permute` as `doris::Exception(ErrorCode::INTERNAL_ERROR,...)`
followed by `__builtin_unreachable()` — as unrecoverable caller-contract
faults, not recoverable error values (the `Exception` class itself lives
outside the analyzed sources). -/
inductive FatalOr (β : Type)
  | fatal
  | ok : β → FatalOr β
  deriving DecidableEq, Repr

/-- Effective permutation length required by `ColumnVector<T>::permute`:
`limit == 0` means all rows, otherwise `limit` clamped to the row count. -/
def effectiveLimit (size limit : Nat) : Nat :=
  if limit = 0 then size else min size limit

/-- Embedding of `ColumnVector<T>::permute(perm, limit)`
(`column_vector.cpp:439-463`): a supplied permutation shorter than the
effective limit escalates as a fatal engineering fault; otherwise row `i` of
the fresh result column is `data[perm[i]]` for `i < limit` (a permutation
entry beyond the row count would be undefined behaviour in the source and is
modelled by a default read). -/
def permute (d : α) (data : List α) (perm : List Nat) (limit : Nat) :
    FatalOr (List α) :=
  let lim := effectiveLimit data.length limit
  if perm.length < lim then FatalOr.fatal
  else FatalOr.ok ((List.range lim).map (fun i => data.getD (perm.getD i 0) d))

/-- C8: a permutation shorter than the effective limit the caller requires is
a caller-contract violation and escalates as an unrecoverable process-level
fatal fault — `permute` never turns it into a recoverable return value. -/
theorem permute_short_perm_fatal (d : α) (data : List α) (perm : List Nat)
    (limit : Nat) (h : perm.length < effectiveLimit data.length limit) :
    permute d data perm limit = FatalOr.fatal ∧
    ∀ r, permute d data perm limit ≠ FatalOr.ok r := by
  have hmain : permute d data perm limit = FatalOr.fatal := by
    unfold permute
    exact if_pos h
  exact ⟨hmain, fun r hx => by rw [hmain] at hx; exact FatalOr.noConfusion hx⟩

/-- Witness for C8: a one-entry permutation against a three-row column with
`limit = 0` (effective limit 3) is fatal. -/
theorem permute_short_perm_fatal_witness :
    permute (0 : Int) [1, 2, 3] [0] 0 = FatalOr.fatal := by
  exact (permute_short_perm_fatal (0 : Int) [1, 2, 3] [0] 0 (by decide)).1

/-- Little-endian byte encoding of a natural number into exactly `w` bytes,
modelling `memcpy`/`unaligned_store` of a `w`-byte integer element on a
little-endian platform. -/
def natToLEBytes : Nat → Nat → List Nat
  | 0, _ => []
  | w + 1, n => n % 256 :: natToLEBytes w (n / 256)

/-- Little-endian byte decoding, modelling `unaligned_load`. -/
def leBytesToNat : List Nat → Nat
  | [] => 0
  | b :: bs => b + 256 * leBytesToNat bs

theorem length_natToLEBytes : ∀ (w n : Nat), (natToLEBytes w n).length = w
  | 0, _ => rfl
  | w + 1, n => by simp [natToLEBytes, length_natToLEBytes w]

theorem leBytesToNat_natToLEBytes :
    ∀ (w n : Nat), n < 256 ^ w → leBytesToNat (natToLEBytes w n) = n
  | 0, n, h => by
    simp [natToLEBytes, leBytesToNat]
    omega
  | w + 1, n, h => by
    have hdiv : n / 256 < 256 ^ w := by
      rw [Nat.div_lt_iff_lt_mul (by omega)]
      calc n < 256 ^ (w + 1) := h
      _ = 256 ^ w * 256 := by rw [Nat.pow_succ]
    simp [natToLEBytes, leBytesToNat, leBytesToNat_natToLEBytes w _ hdiv]
    omega

/-- Element domains over which `ColumnVector<T>` and `DataTypeNumberSerDe<T>`
are instantiated (`column_vector.cpp:506-518`): `uint32` doubles as the IPv4
domain, and `uint128` / `ipv6` are the 128-bit unsigned and 128-bit address
domains. -/
inductive NumDomain
  | uint8
  | uint16
  | uint32
  | uint64
  | uint128
  | int8
  | int16
  | int32
  | int64
  | int128
  | float32
  | float64
  | ipv6
  deriving DecidableEq, Repr

/-- Model of the protobuf `PValues` message as far as the numeric serde uses
it: the generic type id plus one repeated value field per wire representation.
Elements are carried as the integers of the model column (the converter copies
them verbatim into the typed fields). -/
structure PbValues where
  typeId : Option NumDomain
  uint32Value : List Int
  uint64Value : List Int
  int32Value : List Int
  int64Value : List Int
  floatValue : List Int
  doubleValue : List Int
  bytesValue : List (List Nat)
  deriving DecidableEq, Repr

/-- Recoverable converter status: `Status::NotSupported("unknown ColumnType
...")`, reported as a failed operation on that converter call only. -/
inductive SerdeErr
  | notSupported
  deriving DecidableEq, Repr

/-- Raw 16 little-endian two's-complement bytes of a 128-bit integer element,
as `get_data_at(row)` exposes them. -/
def int128ToBytes (v : Int) : List Nat :=
  natToLEBytes 16 (v % (2 : Int) ^ 128).toNat

/-- Signed little-endian interpretation of 16 raw bytes, modelling the
`*(int128_t*)(bytes.c_str())` read in `read_column_from_pb`. -/
def bytesToInt128 (bs : List Nat) : Int :=
  let n := leBytesToNat (bs.take 16)
  if n < 2 ^ 127 then (n : Int) else (n : Int) - 2 ^ 128

/-- Unchecked narrowing cast `cast_set<T, F, false>` onto a `w`-bit unsigned
element. -/
def wrapU (w : Nat) (v : Int) : Int := v % (2 : Int) ^ w

/-- Unchecked narrowing cast onto a `w`-bit signed element (two's
complement). -/
def wrapS (w : Nat) (v : Int) : Int :=
  let m := v % (2 : Int) ^ w
  if m < 2 ^ (w - 1) then m else m - 2 ^ w

/-- Embedding of `DataTypeNumberSerDe<T>::write_column_to_pb(column, result,
start, end)` (`data_type_number_serde.h:180-250`): the `Int128` branch streams
each row's 16 raw bytes into `bytes_value`; every other supported domain
records its generic type id and bulk-appends `data[start..end)` into its typed
repeated field; a domain with no branch — the 128-bit unsigned and the 128-bit
address domains — returns the recoverable `NotSupported` status for that call,
leaving the message untouched. -/
def writeColumnToPb (dom : NumDomain) (col : List Int) (start endi : Nat)
    (result : PbValues) : Except SerdeErr PbValues :=
  let slice := (col.drop start).take (endi - start)
  match dom with
  | .int128 =>
    Except.ok { result with
      typeId := some NumDomain.int128,
      bytesValue := result.bytesValue ++ slice.map int128ToBytes }
  | .uint8 =>
    Except.ok { result with
      typeId := some NumDomain.uint8,
      uint32Value := result.uint32Value ++ slice }
  | .uint16 =>
    Except.ok { result with
      typeId := some NumDomain.uint16,
      uint32Value := result.uint32Value ++ slice }
  | .uint32 =>
    Except.ok { result with
      typeId := some NumDomain.uint32,
      uint32Value := result.uint32Value ++ slice }
  | .uint64 =>
    Except.ok { result with
      typeId := some NumDomain.uint64,
      uint64Value := result.uint64Value ++ slice }
  | .int8 =>
    Except.ok { result with
      typeId := some NumDomain.int8,
      int32Value := result.int32Value ++ slice }
  | .int16 =>
    Except.ok { result with
      typeId := some NumDomain.int16,
      int32Value := result.int32Value ++ slice }
  | .int32 =>
    Except.ok { result with
      typeId := some NumDomain.int32,
      int32Value := result.int32Value ++ slice }
  | .int64 =>
    Except.ok { result with
      typeId := some NumDomain.int64,
      int64Value := result.int64Value ++ slice }
  | .float32 =>
    Except.ok { result with
      typeId := some NumDomain.float32,
      floatValue := result.floatValue ++ slice }
  | .float64 =>
    Except.ok { result with
      typeId := some NumDomain.float64,
      doubleValue := result.doubleValue ++ slice }
  | .uint128 => Except.error SerdeErr.notSupported
  | .ipv6 => Except.error SerdeErr.notSupported

/-- Embedding of `DataTypeNumberSerDe<T>::read_column_from_pb(column, arg)`
(`data_type_number_serde.h:117-178`): each supported domain appends its typed
repeated field onto the column — through the unchecked narrowing cast
`cast_set<T, ..., false>` for the sub-32-bit domains and through the raw
16-byte reinterpretation for `Int128`; a domain with no branch — the 128-bit
unsigned and the 128-bit address domains — returns the recoverable
`NotSupported` status for that call and leaves the column untouched. -/
def readColumnFromPb (dom : NumDomain) (col : List Int) (arg : PbValues) :
    Except SerdeErr (List Int) :=
  match dom with
  | .uint8 => Except.ok (col ++ arg.uint32Value.map (wrapU 8))
  | .uint16 => Except.ok (col ++ arg.uint32Value.map (wrapU 16))
  | .uint32 => Except.ok (col ++ arg.uint32Value)
  | .int8 => Except.ok (col ++ arg.int32Value.map (wrapS 8))
  | .int16 => Except.ok (col ++ arg.int32Value.map (wrapS 16))
  | .int32 => Except.ok (col ++ arg.int32Value)
  | .uint64 => Except.ok (col ++ arg.uint64Value)
  | .int64 => Except.ok (col ++ arg.int64Value)
  | .float32 => Except.ok (col ++ arg.floatValue)
  | .float64 => Except.ok (col ++ arg.doubleValue)
  | .int128 => Except.ok (col ++ arg.bytesValue.map bytesToInt128)
  | .uint128 => Except.error SerdeErr.notSupported
  | .ipv6 => Except.error SerdeErr.notSupported

/-- C9: asked to encode or decode an element domain it has no branch for — the
128-bit unsigned domain or the 128-bit address domain — each protobuf
converter call reports the recoverable `NotSupported` failure as its return
value for that call only (every other domain succeeds), and never escalates
into a fatal outcome. -/
theorem pb_unsupported_domain_spec (dom : NumDomain) (col : List Int)
    (start endi : Nat) (result : PbValues) (arg : PbValues)
    (h : dom = NumDomain.uint128 ∨ dom = NumDomain.ipv6) :
    writeColumnToPb dom col start endi result = Except.error SerdeErr.notSupported ∧
    readColumnFromPb dom col arg = Except.error SerdeErr.notSupported ∧
    ∀ dom2 : NumDomain,
      (∃ e, writeColumnToPb dom2 col start endi result = Except.error e) ∨
      (∃ r, writeColumnToPb dom2 col start endi result = Except.ok r) := by
  refine ⟨?_, ?_, ?_⟩
  · cases h with
    | inl h => rw [h]; rfl
    | inr h => rw [h]; rfl
  · cases h with
    | inl h => rw [h]; rfl
    | inr h => rw [h]; rfl
  · intro dom2
    cases dom2 <;> first
      | exact Or.inl ⟨SerdeErr.notSupported, rfl⟩
      | exact Or.inr ⟨_, rfl⟩

/-- Witness for C9: the 128-bit unsigned domain is rejected with
`NotSupported` by both converter calls on a concrete column and message. -/
theorem pb_unsupported_domain_spec_witness :
    writeColumnToPb NumDomain.uint128 [1, 2] 0 2
        ⟨none, [], [], [], [], [], [], []⟩ =
      Except.error SerdeErr.notSupported ∧
    readColumnFromPb NumDomain.uint128 [1, 2] ⟨none, [], [], [], [], [], [], []⟩ =
      Except.error SerdeErr.notSupported := by
  have h := pb_unsupported_domain_spec NumDomain.uint128 [1, 2] 0 2
    ⟨none, [], [], [], [], [], [], []⟩ ⟨none, [], [], [], [], [], [], []⟩
    (Or.inl rfl)
  exact ⟨h.1, h.2.1⟩

/-- Modelled from the spec: `std::partial_sort` (external) — its first `lim`
entries are the correctly ordered top of the full sort and the remaining
entries come in an order the contract leaves unspecified (this model reverses
them to keep that distinction observable). -/
def psortModel (r : Nat → Nat → Prop) [DecidableRel r] (lim : Nat)
    (l : List Nat) : List Nat :=
  let sorted := List.insertionSort r l
  sorted.take lim ++ (sorted.drop lim).reverse

/-- Embedding of `ColumnVector<T>::get_permutation(reverse, limit,
nan_direction_hint, res)` (`column_vector.cpp:237-266`): the permutation is
sized to the row count and returned as-is for an empty column; a `limit`
larger than `size / 8` (the source compares IEEE doubles, exact for feasible
row counts) is clamped to 0; a nonzero remaining `limit` runs
`std::partial_sort` (modelled by `psortModel`), otherwise `pdqsort` runs over
all indices — in both cases over the identity permutation `0..size-1` with the
`less` functor (`greater` when `reverse`), i.e. the element comparator `lt`
with the caller's NaN direction baked in.  The two external sort routines live
outside the analyzed sources and are modelled from the spec ("full unstable
sort by a comparator" / "orders the top limit indices correctly") by
conforming comparison sorts.  `d` is the default element for an out-of-range
index read and is never hit for indices below the row count. -/
def getPermutation (lt : α → α → Bool) (d : α) (reverse : Bool) (limit : Nat)
    (data : List α) : List Nat :=
  let s := data.length
  if s = 0 then []
  else
    let lim := if 8 * limit > s then 0 else limit
    let cmp : α → α → Bool := if reverse then fun a b => lt b a else lt
    if lim ≠ 0 then
      psortModel (fun i j => cmp (data.getD j d) (data.getD i d) = false) lim
        (List.range s)
    else
      List.insertionSort (fun i j => cmp (data.getD j d) (data.getD i d) = false)
        (List.range s)

/-- C3: when `limit` is 0 or exceeds `size()/8`, `get_permutation` with
`reverse = false` performs a full sort: it returns a rearrangement of the row
indices `0..size()-1`, and reading the column's elements in permutation order
is non-decreasing under the element comparator with the supplied NaN tie-break
(consecutive reads `a` then `b` satisfy `lt b a = false`).  The comparator is
assumed asymmetric and negatively transitive — the strict-weak-order contract
C++ imposes on `less`. -/
theorem get_permutation_full_sort_spec (lt : α → α → Bool) (d : α) (limit : Nat)
    (data : List α)
    (hasym : ∀ a b, lt a b = true → lt b a = false)
    (hnegtrans : ∀ a b c, lt c b = false → lt b a = false → lt c a = false)
    (hreg : limit = 0 ∨ data.length < 8 * limit) :
    List.Perm (getPermutation lt d false limit data) (List.range data.length) ∧
    ((getPermutation lt d false limit data).map (fun i => data.getD i d)).Pairwise
      (fun a b => lt b a = false) := by
  by_cases hs : data.length = 0
  · rw [getPermutation, if_pos hs, hs]
    exact ⟨List.Perm.refl _, List.Pairwise.nil⟩
  · have hrew : getPermutation lt d false limit data
        = List.insertionSort
            (fun i j => lt (data.getD j d) (data.getD i d) = false)
            (List.range data.length) := by
      rw [getPermutation, if_neg hs]
      have hcl : (if 8 * limit > data.length then 0 else limit) = 0 := by
        rcases hreg with h0 | hlt
        · simp [h0]
        · exact if_pos hlt
      simp only [hcl, ne_eq, not_true_eq_false, if_false, Bool.false_eq_true,
        ite_self]
    haveI htot : IsTotal Nat
        (fun i j => lt (data.getD j d) (data.getD i d) = false) := by
      constructor
      intro i j
      by_cases hij : lt (data.getD j d) (data.getD i d) = true
      · right
        exact hasym _ _ hij
      · left
        simpa using hij
    haveI htrans : IsTrans Nat
        (fun i j => lt (data.getD j d) (data.getD i d) = false) := by
      constructor
      intro i j k hij hjk
      exact hnegtrans (data.getD i d) (data.getD j d) (data.getD k d) hjk hij
    rw [hrew]
    refine ⟨List.perm_insertionSort _ _, ?_⟩
    rw [List.pairwise_map]
    exact List.sorted_insertionSort _ _

/-- Modelled from the spec: the value domain of a floating-point column as the
comparator observes it — an ordinary number or NaN.  `CompareHelper<T>` is
declared in `column_vector.h`, outside the analyzed sources. -/
inductive FVal
  | num : Int → FVal
  | nan
  deriving DecidableEq, Repr

/-- Modelled from the spec: the strict `less` element comparator with NaN
tie-break `hint` — NaN sorts greatest when `hint > 0` and least when
`hint < 0`, and ordinary numbers compare numerically. -/
def fvalLess (hint : Int) : FVal → FVal → Bool
  | FVal.nan, FVal.nan => false
  | FVal.nan, FVal.num _ => decide (hint < 0)
  | FVal.num _, FVal.nan => decide (0 < hint)
  | FVal.num a, FVal.num b => decide (a < b)

theorem fvalLess_asymm (hint : Int) (a b : FVal) (h : fvalLess hint a b = true) :
    fvalLess hint b a = false := by
  cases a <;> cases b <;> simp [fvalLess] at h ⊢ <;> omega

theorem fvalLess_negtrans (hint : Int) (hh : hint ≠ 0) (a b c : FVal)
    (h1 : fvalLess hint c b = false) (h2 : fvalLess hint b a = false) :
    fvalLess hint c a = false := by
  cases a <;> cases b <;> cases c <;>
    simp [fvalLess] at h1 h2 ⊢ <;> omega

/-- Witness for C3 at the spec's concrete scenario 3: floating column
`[1.0, NaN, -1.0]` with NaN-as-greatest (`hint = 1`), `limit = 0`: the result
is a rearrangement of `0,1,2`, reads non-decreasingly under the comparator,
and is exactly the permutation `[2,0,1]` (element order `-1.0, 1.0, NaN`). -/
theorem get_permutation_full_sort_spec_witness :
    List.Perm
      (getPermutation (fvalLess 1) (FVal.num 0) false 0
        [FVal.num 1, FVal.nan, FVal.num (-1)]) (List.range 3) ∧
    ((getPermutation (fvalLess 1) (FVal.num 0) false 0
        [FVal.num 1, FVal.nan, FVal.num (-1)]).map
      (fun i => ([FVal.num 1, FVal.nan, FVal.num (-1)] : List FVal).getD i
        (FVal.num 0))).Pairwise (fun a b => fvalLess 1 b a = false) ∧
    getPermutation (fvalLess 1) (FVal.num 0) false 0
      [FVal.num 1, FVal.nan, FVal.num (-1)] = [2, 0, 1] := by
  have h := get_permutation_full_sort_spec (fvalLess 1) (FVal.num 0) 0
    [FVal.num 1, FVal.nan, FVal.num (-1)]
    (fvalLess_asymm 1) (fvalLess_negtrans 1 (by decide)) (Or.inl rfl)
  exact ⟨h.1, h.2, by decide⟩

/-- Embedding of `ColumnVector<T>::serialize_vec_with_null_map(keys, num_rows,
null_map)` (`column_vector.cpp:75-103`) for a `w`-byte integer element domain.
Each row's key is modelled as the byte list accumulated at its destination
slice (`keys[i].data + keys[i].size` onward), and `simd::contain_byte`
(external) by `any`.  When some row is null, every row appends its null byte
first and — only when that byte is 0 — the element's `w` little-endian value
bytes, advancing the recorded length by `sizeof(UInt8) + (1 - null) *
sizeof(T)`; when no row is null, every row appends a zero flag byte
(`memset(dest, 0, 1)`) followed by the value bytes. -/
def serializeVecWithNullMap (w : Nat) (keys : List (List Nat)) (data : List Nat)
    (nullMap : List Bool) : List (List Nat) :=
  if nullMap.any id then
    List.zipWith3
      (fun k x b => if b then k ++ [1] else k ++ 0 :: natToLEBytes w x)
      keys data nullMap
  else
    List.zipWith (fun k x => k ++ 0 :: natToLEBytes w x) keys data

/-- Embedding of `ColumnVector<T>::deserialize_vec_with_null_map(keys,
num_rows, null_map)` (`column_vector.cpp:113-125`): per row, a non-null entry
reads `w` bytes from the row's slice (`deserialize_and_insert_from_arena`),
appends the decoded element to the column and advances the slice past the
consumed bytes (`keys[i].size -= sizeof(T)`); a null entry appends the
domain's zero default (`insert_default`) and consumes nothing.  Returns the
appended elements in row order together with the advanced slices. -/
def deserializeVecWithNullMap (w : Nat) :
    List (List Nat) → List Bool → List Nat × List (List Nat)
  | k :: ks, b :: bs =>
    let rest := deserializeVecWithNullMap w ks bs
    if b then (0 :: rest.1, k :: rest.2)
    else (leBytesToNat (k.take w) :: rest.1, k.drop w :: rest.2)
  | _, _ => ([], [])

theorem zipWith3_congr {α1 α2 α3 β : Type} (f g : α1 → α2 → α3 → β)
    (h : ∀ a b c, f a b c = g a b c) :
    ∀ (l1 : List α1) (l2 : List α2) (l3 : List α3),
      List.zipWith3 f l1 l2 l3 = List.zipWith3 g l1 l2 l3
  | a :: l1, b :: l2, c :: l3 => by
    simp [List.zipWith3, h a b c, zipWith3_congr f g h l1 l2 l3]
  | [], _, _ => by simp [List.zipWith3]
  | _ :: _, [], _ => by simp [List.zipWith3]
  | _ :: _, _ :: _, [] => by simp [List.zipWith3]

theorem getD_zipWith3 {α1 α2 α3 β : Type} (f : α1 → α2 → α3 → β)
    (d1 : α1) (d2 : α2) (d3 : α3) (db : β) :
    ∀ (l1 : List α1) (l2 : List α2) (l3 : List α3) (i : Nat),
      i < l1.length → i < l2.length → i < l3.length →
      (List.zipWith3 f l1 l2 l3).getD i db =
        f (l1.getD i d1) (l2.getD i d2) (l3.getD i d3)
  | a :: l1, b :: l2, c :: l3, 0, _, _, _ => rfl
  | a :: l1, b :: l2, c :: l3, i + 1, h1, h2, h3 => by
    simp only [List.zipWith3, List.getD_cons_succ]
    exact getD_zipWith3 f d1 d2 d3 db l1 l2 l3 i (by simpa using h1)
      (by simpa using h2) (by simpa using h3)

theorem serializeVecWithNullMap_rows (w : Nat) :
    ∀ (keys : List (List Nat)) (data : List Nat) (nullMap : List Bool),
      keys.length = data.length → nullMap.length = data.length →
      (∀ b ∈ nullMap, b = false) →
      List.zipWith (fun k x => k ++ 0 :: natToLEBytes w x) keys data =
        List.zipWith3
          (fun k x b => if b then k ++ [1] else k ++ 0 :: natToLEBytes w x)
          keys data nullMap
  | [], [], [], _, _, _ => rfl
  | [], x :: xs, _, hk, _, _ => by simp at hk
  | k :: ks, [], _, hk, _, _ => by simp at hk
  | [], [], b :: bs, _, hn, _ => by simp at hn
  | k :: ks, x :: xs, [], _, hn, _ => by simp at hn
  | k :: ks, x :: xs, b :: bs, hk, hn, hall => by
    have hb : b = false := hall b (by simp)
    have ih := serializeVecWithNullMap_rows w ks xs bs (by simpa using hk)
      (by simpa using hn) (fun c hc => hall c (by simp [hc]))
    simp [List.zipWith3, hb, ih]

theorem deserializeVecWithNullMap_roundtrip (w : Nat) :
    ∀ (data : List Nat) (nullMap : List Bool) (exs : List (List Nat)),
      nullMap.length = data.length → exs.length = data.length →
      (∀ x ∈ data, x < 256 ^ w) →
      deserializeVecWithNullMap w
          (List.zipWith3 (fun x b ex => if b then ex else natToLEBytes w x ++ ex)
            data nullMap exs) nullMap =
        (List.zipWith (fun x b => if b then 0 else x) data nullMap, exs)
  | [], [], [], _, _, _ => rfl
  | x :: xs, b :: bs, ex :: exs, hn, he, hdom => by
    have ih := deserializeVecWithNullMap_roundtrip w xs bs exs
      (by simpa using hn) (by simpa using he) (fun y hy => hdom y (by simp [hy]))
    cases b
    · have hx : x < 256 ^ w := hdom x (by simp)
      simp [List.zipWith3, List.zipWith, deserializeVecWithNullMap,
        List.take_left' (length_natToLEBytes w x),
        List.drop_left' (length_natToLEBytes w x),
        leBytesToNat_natToLEBytes w x hx, ih]
    · simp [List.zipWith3, List.zipWith, deserializeVecWithNullMap, ih]
  | x :: xs, [], _, hn, _, _ => by simp at hn
  | x :: xs, _ :: _, [], _, he, _ => by simp at he
  | [], _ :: _, _, hn, _, _ => by simp at hn
  | [], [], _ :: _, _, he, _ => by simp at he

/-- C5: for a `w`-byte element column, per-row destination slices and a boolean
null map, `serialize_vec_with_null_map` appends to each row's slice a 1-byte
flag (0 = not null, 1 = null) followed — exactly when the row is not null — by
the `w` value bytes, advancing the slice's recorded length by 1 byte for a
null row and `1 + w` bytes otherwise; and `deserialize_vec_with_null_map`
applied to the produced value bytes (the flag already consumed, an arbitrary
tail `exs[i]` left in each slice) with the same null map reconstructs every
non-null original value exactly, appends the domain's zero default at every
null position, and consumes exactly `w` bytes from each non-null slice and
none from a null slice. -/
theorem serde_vec_with_null_map_spec (w : Nat) (keys : List (List Nat))
    (data : List Nat) (nullMap : List Bool) (exs : List (List Nat))
    (hk : keys.length = data.length) (hn : nullMap.length = data.length)
    (he : exs.length = data.length) (hdom : ∀ x ∈ data, x < 256 ^ w) :
    serializeVecWithNullMap w keys data nullMap =
      List.zipWith3
        (fun k x b => k ++ (if b then [1] else 0 :: natToLEBytes w x))
        keys data nullMap ∧
    (∀ i, i < data.length →
      ((serializeVecWithNullMap w keys data nullMap).getD i []).length =
        (keys.getD i []).length + (if nullMap.getD i false then 1 else 1 + w)) ∧
    deserializeVecWithNullMap w
        (List.zipWith3 (fun x b ex => if b then ex else natToLEBytes w x ++ ex)
          data nullMap exs) nullMap =
      (List.zipWith (fun x b => if b then 0 else x) data nullMap, exs) := by
  have hshape : serializeVecWithNullMap w keys data nullMap =
      List.zipWith3
        (fun k x b => k ++ (if b then [1] else 0 :: natToLEBytes w x))
        keys data nullMap := by
    rw [serializeVecWithNullMap]
    by_cases hany : nullMap.any id = true
    · rw [if_pos hany]
      exact zipWith3_congr _ _ (fun k x b => by cases b <;> rfl) keys data nullMap
    · rw [if_neg hany]
      have hall : ∀ b ∈ nullMap, b = false := by
        intro b hb
        by_contra hbne
        exact hany (List.any_eq_true.mpr ⟨b, hb, by simpa using hbne⟩)
      rw [serializeVecWithNullMap_rows w keys data nullMap hk hn hall]
      exact zipWith3_congr _ _ (fun k x b => by cases b <;> rfl) keys data nullMap
  refine ⟨hshape, ?_, deserializeVecWithNullMap_roundtrip w data nullMap exs hn he hdom⟩
  intro i hi
  rw [hshape, getD_zipWith3 _ [] 0 false [] keys data nullMap i (by omega) hi (by omega)]
  by_cases hb : nullMap.getD i false
  · rw [if_pos hb, if_pos hb]
    simp
  · rw [if_neg hb, if_neg hb]
    simp [length_natToLEBytes]
    omega

/-- Witness for C5 at the spec's concrete scenario 5: 64-bit column `[7, 0]`
with null map `[0, 1]` serialized into empty slices gives row 0 the flag byte
`0x00` followed by the 8-byte little-endian encoding of 7 and row 1 the single
flag byte `0x01`; deserializing the value bytes reconstructs `[7, 0]` with row
1 defaulted and nothing consumed from its slice. -/
theorem serde_vec_with_null_map_spec_witness :
    serializeVecWithNullMap 8 [[], []] [7, 0] [false, true] =
      [[0, 7, 0, 0, 0, 0, 0, 0, 0], [1]] ∧
    deserializeVecWithNullMap 8 [[7, 0, 0, 0, 0, 0, 0, 0], []] [false, true] =
      ([7, 0], [[], []]) := by
  have h := serde_vec_with_null_map_spec 8 [[], []] [7, 0] [false, true] [[], []]
    rfl rfl rfl (by decide)
  refine ⟨h.1.trans (by decide), ?_⟩
  have h3 := h.2.2
  have hv : List.zipWith3
      (fun x b ex => if b then ex else natToLEBytes 8 x ++ ex)
      [7, 0] [false, true] [[], []] = [[7, 0, 0, 0, 0, 0, 0, 0], []] := by decide
  rw [hv] at h3
  exact h3.trans (by decide)

/-- Domain tag as `update_crcs_with_value` inspects it: the two temporal tags
that trigger textual decoding on 64-bit integer columns, with every other
primitive type collapsed into `tOther` (the source only ever compares the tag
against `TYPE_DATE` and `TYPE_DATETIME`). -/
inductive PrimTag
  | tDate
  | tDatetime
  | tOther
  deriving DecidableEq, Repr

theorem getD_zipWith {α1 α2 β : Type} (f : α1 → α2 → β) (d1 : α1) (d2 : α2)
    (db : β) :
    ∀ (l1 : List α1) (l2 : List α2) (i : Nat), i < l1.length → i < l2.length →
      (List.zipWith f l1 l2).getD i db = f (l1.getD i d1) (l2.getD i d2)
  | a :: l1, b :: l2, 0, _, _ => rfl
  | a :: l1, b :: l2, i + 1, h1, h2 => by
    simp only [List.zipWith, List.getD_cons_succ]
    exact getD_zipWith f d1 d2 db l1 l2 i (by simpa using h1) (by simpa using h2)
  | [], _, _, h1, _ => by simp at h1
  | _ :: _, [], _, _, h2 => by simp at h2

/-- Embedding of `ColumnVector<T>::update_crcs_with_value(hashes, type, rows,
offset, null_data)` (`column_vector.cpp:180-213`) for `T = Int64`: when the
domain tag is `TYPE_DATE` or `TYPE_DATETIME`, each non-null element is first
decoded through `VecDateTimeValue::to_buffer` into its canonical textual
rendering — `render`, external to the analyzed sources — and the checksum
mixes that text; for every other tag the raw 8 element bytes (`raw`) are mixed
(`DO_CRC_HASHES_FUNCTION_COLUMN_IMPL`, an external macro modelled from the
spec's "same per-row mixing pattern" on raw bits); rows whose null byte is set
are skipped, leaving their accumulator untouched.  `crc` models
`HashUtil::zlib_crc_hash(buf, len, seed)`. -/
def updateCrcsWithValueInt64 (crc : List Nat → Nat → Nat)
    (render raw : Int → List Nat) (tag : PrimTag) (hashes : List Nat)
    (data : List Int) (nullData : Option (List Bool)) : List Nat :=
  let f : Int → List Nat :=
    if tag = PrimTag.tDate ∨ tag = PrimTag.tDatetime then render else raw
  match nullData with
  | none => List.zipWith (fun h v => crc (f v) h) hashes data
  | some nd =>
    List.zipWith3 (fun h v b => if b then h else crc (f v) h) hashes data nd

/-- Embedding of the `!std::is_same_v<T, Int64>` branch of
`update_crcs_with_value`: every other element domain always mixes the raw
element bytes, whatever the tag says. -/
def updateCrcsWithValueOther (crc : List Nat → Nat → Nat) (raw : α → List Nat)
    (hashes : List Nat) (data : List α) (nullData : Option (List Bool)) :
    List Nat :=
  match nullData with
  | none => List.zipWith (fun h v => crc (raw v) h) hashes data
  | some nd =>
    List.zipWith3 (fun h v b => if b then h else crc (raw v) h) hashes data nd

/-- C7: on a 64-bit integer column, a date or date-time domain tag makes the
checksum hash each non-null element's canonical textual rendering instead of
its raw 8 bytes — so two temporal values with equal renderings receive
identical hashes — while any other tag hashes the raw element bytes; rows
flagged in the supplied null map keep their accumulator untouched. -/
theorem update_crcs_with_value_spec (crc : List Nat → Nat → Nat)
    (render raw : Int → List Nat) (tag : PrimTag) (hashes : List Nat)
    (data : List Int) (nd : List Bool)
    (hh : hashes.length = data.length) (hn : nd.length = data.length) :
    (∀ i, i < data.length →
      (updateCrcsWithValueInt64 crc render raw tag hashes data (some nd)).getD i 0 =
        if nd.getD i false then hashes.getD i 0
        else crc
          ((if tag = PrimTag.tDate ∨ tag = PrimTag.tDatetime then render else raw)
            (data.getD i 0))
          (hashes.getD i 0)) ∧
    (∀ i, i < data.length →
      (updateCrcsWithValueInt64 crc render raw tag hashes data none).getD i 0 =
        crc
          ((if tag = PrimTag.tDate ∨ tag = PrimTag.tDatetime then render else raw)
            (data.getD i 0))
          (hashes.getD i 0)) ∧
    (∀ (v1 v2 : Int) (seed : Nat),
      (tag = PrimTag.tDate ∨ tag = PrimTag.tDatetime) → render v1 = render v2 →
      updateCrcsWithValueInt64 crc render raw tag [seed] [v1] none =
        updateCrcsWithValueInt64 crc render raw tag [seed] [v2] none) ∧
    (∀ i, i < data.length →
      (updateCrcsWithValueOther crc raw hashes data (some nd)).getD i 0 =
        if nd.getD i false then hashes.getD i 0
        else crc (raw (data.getD i 0)) (hashes.getD i 0)) := by
  refine ⟨?_, ?_, ?_, ?_⟩
  · intro i hi
    rw [updateCrcsWithValueInt64]
    rw [getD_zipWith3 _ 0 0 false 0 hashes data nd i (by omega) hi (by omega)]
  · intro i hi
    rw [updateCrcsWithValueInt64]
    rw [getD_zipWith _ 0 0 0 hashes data i (by omega) hi]
  · intro v1 v2 seed htag hrender
    rw [updateCrcsWithValueInt64, updateCrcsWithValueInt64, if_pos htag]
    simp [List.zipWith, hrender]
  · intro i hi
    rw [updateCrcsWithValueOther]
    rw [getD_zipWith3 _ 0 0 false 0 hashes data nd i (by omega) hi (by omega)]

/-- Concrete checksum stand-in used by the C7 witness. -/
def crcT (bs : List Nat) (seed : Nat) : Nat := leBytesToNat bs + 31 * seed

/-- Concrete canonical-rendering stand-in for the C7 witness: two different
internal layouts (here 7 and 107) render identically. -/
def renderT (v : Int) : List Nat := natToLEBytes 2 ((v % 100).toNat)

/-- Concrete raw-8-byte layout stand-in for the C7 witness. -/
def rawT (v : Int) : List Nat := natToLEBytes 8 ((v % (2 : Int) ^ 64).toNat)

/-- Witness for C7: on the date-tagged 64-bit column `[7, 107]` with seeds
`[5, 6]` and null map `[0, 1]`, row 0 hashes the rendering of 7 with seed 5,
the null row 1 keeps its seed 6; and the two layouts 7 and 107, which render
identically, receive identical hashes. -/
theorem update_crcs_with_value_spec_witness :
    (updateCrcsWithValueInt64 crcT renderT rawT PrimTag.tDate [5, 6] [7, 107]
      (some [false, true])).getD 0 0 = crcT (renderT 7) 5 ∧
    (updateCrcsWithValueInt64 crcT renderT rawT PrimTag.tDate [5, 6] [7, 107]
      (some [false, true])).getD 1 0 = 6 ∧
    updateCrcsWithValueInt64 crcT renderT rawT PrimTag.tDate [5] [7] none =
      updateCrcsWithValueInt64 crcT renderT rawT PrimTag.tDate [5] [107] none := by
  have h := update_crcs_with_value_spec crcT renderT rawT PrimTag.tDate [5, 6]
    [7, 107] [false, true] rfl rfl
  refine ⟨(h.1 0 (by decide)).trans (by decide), (h.1 1 (by decide)).trans (by decide),
    h.2.2.1 7 107 5 (Or.inl rfl) (by decide)⟩

/-- Element read of a permutation entry: the value the sort comparators load
through `parent.data[lhs]`. -/
def dataAt (data : List α) (d : α) (i : Nat) : α := data.getD i d

/-- Modelled from the spec: the postcondition of the full-sort regime of
`get_permutation` — "a full unstable sort of all row indices by a comparator
over element values (ties broken arbitrarily)"; `pdqsort` is external, so any
rearrangement of the row indices whose element reads are non-decreasing is a
conforming outcome. -/
@[reducible] def IsFullSortPerm (lt : α → α → Bool) (d : α) (data : List α)
    (p : List Nat) : Prop :=
  List.Perm p (List.range data.length) ∧
  (p.map (dataAt data d)).Pairwise (fun a b => lt b a = false)

/-- Modelled from the spec: the postcondition of the partial-sort regime —
"orders the top `limit` indices correctly; the remaining indices are present
but in unspecified relative order" (the `std::partial_sort` contract):
a rearrangement of the row indices whose first `limit` reads are
non-decreasing and precede, under the comparator, every remaining read. -/
@[reducible] def IsTopKSortPerm (lt : α → α → Bool) (d : α) (limit : Nat) (data : List α)
    (p : List Nat) : Prop :=
  List.Perm p (List.range data.length) ∧
  ((p.take limit).map (dataAt data d)).Pairwise (fun a b => lt b a = false) ∧
  ∀ a ∈ (p.take limit).map (dataAt data d),
    ∀ b ∈ (p.drop limit).map (dataAt data d), lt b a = false

/-- Strict integer comparator used by the C6 concrete instances. -/
def intLtB (a b : Int) : Bool := decide (a < b)

/-- C6 counterexample: on a 16-row all-equal column, `limit = 2` lies in the
partial regime (`0 < 2 ≤ 16/8`); the identity permutation is a conforming
full-sort outcome and `[2,3,0,1,4,...,15]` a conforming partial-sort outcome —
both sorts break ties arbitrarily — yet their first two positions are the
index sets `{0,1}` versus `{2,3}`: not identical, refuting the claimed
set-of-row-indices agreement. -/
theorem topk_full_agreement_counterexample :
    0 < 2 ∧ 8 * 2 ≤ (List.replicate 16 (0 : Int)).length ∧
    IsFullSortPerm intLtB 0 (List.replicate 16 (0 : Int)) (List.range 16) ∧
    IsTopKSortPerm intLtB 0 2 (List.replicate 16 (0 : Int))
      ([2, 3, 0, 1] ++ List.range' 4 12) ∧
    ¬ ((List.range 16).take 2).toFinset =
        (([2, 3, 0, 1] ++ List.range' 4 12).take 2).toFinset := by
  decide

/-- C6 amended: in the partial regime (`0 < limit ≤ size/8`) and for a
comparator that is a strict weak order whose ties are genuine equalities of
element values (true of the numeric domains), any conforming full-sort
permutation and any conforming partial-sort permutation agree on their first
`limit` positions *read as element values* — the very sequences coincide, so
in particular the multisets of values agree; the per-row-index set identity of
the original claim fails on tied elements (see the counterexample) and this
value-level agreement is what holds. -/
theorem topk_full_agreement_spec (lt : α → α → Bool) (d : α) (data : List α)
    (limit : Nat) (p1 p2 : List Nat)
    (hasym : ∀ a b, lt a b = true → lt b a = false)
    (hnegtrans : ∀ a b c, lt c b = false → lt b a = false → lt c a = false)
    (hantisym : ∀ a b, lt a b = false → lt b a = false → a = b)
    (hlim : 0 < limit) (hreg : 8 * limit ≤ data.length)
    (h1 : IsFullSortPerm lt d data p1) (h2 : IsTopKSortPerm lt d limit data p2) :
    (p1.take limit).map (dataAt data d) = (p2.take limit).map (dataAt data d) := by
  haveI htrans : IsTrans α (fun a b => lt b a = false) :=
    ⟨fun a b c hab hbc => hnegtrans a b c hbc hab⟩
  haveI htotal : IsTotal α (fun a b => lt b a = false) := by
    constructor
    intro a b
    by_cases hab : lt b a = true
    · right
      exact hasym _ _ hab
    · left
      simpa using hab
  haveI hanti : IsAntisymm α (fun a b => lt b a = false) :=
    ⟨fun a b hab hba => hantisym a b hba hab⟩
  have hlen1 : p1.length = data.length := h1.1.length_eq.trans (List.length_range _)
  have hlen2 : p2.length = data.length := h2.1.length_eq.trans (List.length_range _)
  have hvperm : List.Perm (p1.map (dataAt data d)) (p2.map (dataAt data d)) :=
    (h1.1.trans h2.1.symm).map (dataAt data d)
  have hvlen2 : (p2.map (dataAt data d)).length = data.length := by
    simp [hlen2]
  have hlimlen : limit ≤ data.length := by omega
  have htakelen : ((p2.map (dataAt data d)).take limit).length = limit := by
    simp [List.length_take]
    omega
  have hsplit : p2.map (dataAt data d) =
      (p2.map (dataAt data d)).take limit ++ (p2.map (dataAt data d)).drop limit :=
    (List.take_append_drop _ _).symm
  have hmt : (p2.take limit).map (dataAt data d) =
      (p2.map (dataAt data d)).take limit := List.map_take _ _ _
  have hmd : (p2.drop limit).map (dataAt data d) =
      (p2.map (dataAt data d)).drop limit := List.map_drop _ _ _
  have hw_sorted : List.Sorted (fun a b => lt b a = false)
      ((p2.map (dataAt data d)).take limit ++
        List.insertionSort (fun a b => lt b a = false)
          ((p2.map (dataAt data d)).drop limit)) := by
    rw [List.Sorted, List.pairwise_append]
    refine ⟨by rw [← hmt]; exact h2.2.1, List.sorted_insertionSort _ _, ?_⟩
    intro a ha b hb
    have hb2 : b ∈ (p2.map (dataAt data d)).drop limit :=
      (List.perm_insertionSort _ _).subset hb
    exact h2.2.2 a (by rw [hmt]; exact ha) b (by rw [hmd]; exact hb2)
  have hw_perm : List.Perm
      ((p2.map (dataAt data d)).take limit ++
        List.insertionSort (fun a b => lt b a = false)
          ((p2.map (dataAt data d)).drop limit))
      (p1.map (dataAt data d)) := by
    refine List.Perm.trans
      (List.Perm.append_left _ (List.perm_insertionSort _ _)) ?_
    rw [List.take_append_drop]
    exact hvperm.symm
  have hweq : ((p2.map (dataAt data d)).take limit ++
      List.insertionSort (fun a b => lt b a = false)
        ((p2.map (dataAt data d)).drop limit)) = p1.map (dataAt data d) :=
    List.eq_of_perm_of_sorted hw_perm hw_sorted h1.2
  have hfinal : (p1.map (dataAt data d)).take limit =
      (p2.map (dataAt data d)).take limit := by
    rw [← hweq, List.take_left' htakelen]
  rw [List.map_take, List.map_take, hfinal]

theorem intLtB_asymm (a b : Int) (h : intLtB a b = true) : intLtB b a = false := by
  simp [intLtB] at h ⊢
  omega

theorem intLtB_negtrans (a b c : Int) (h1 : intLtB c b = false)
    (h2 : intLtB b a = false) : intLtB c a = false := by
  simp [intLtB] at h1 h2 ⊢
  omega

theorem intLtB_antisymm (a b : Int) (h1 : intLtB a b = false)
    (h2 : intLtB b a = false) : a = b := by
  simp [intLtB] at h1 h2
  omega

/-- Witness for the amended C6: on the 16 distinct values `15,14,...,0` with
`limit = 2`, the conforming full-sort permutation `[15,14,...,0]` and the
conforming partial-sort permutation `[15,14,0,1,...,13]` read the same value
sequence over their first two positions. -/
theorem topk_full_agreement_spec_witness :
    (((List.range 16).reverse).take 2).map
        (dataAt ([15, 14, 13, 12, 11, 10, 9, 8, 7, 6, 5, 4, 3, 2, 1, 0] : List Int) 0) =
      (([15, 14] ++ List.range 14).take 2).map
        (dataAt ([15, 14, 13, 12, 11, 10, 9, 8, 7, 6, 5, 4, 3, 2, 1, 0] : List Int) 0) :=
  topk_full_agreement_spec intLtB 0
    [15, 14, 13, 12, 11, 10, 9, 8, 7, 6, 5, 4, 3, 2, 1, 0] 2
    (List.range 16).reverse ([15, 14] ++ List.range 14)
    intLtB_asymm intLtB_negtrans intLtB_antisymm (by decide) (by decide)
    (by decide) (by decide)

end DorisVec
